import Mathlib

/-!
Verification of the delivery-route-optimization pipeline
(`source/modules/osrm.py`, `source/modules/utilities.py`).

The source is shallowly embedded: dataframes of address rows become lists of
`payload × route-label` pairs, numpy matrices become `List (List Int)` (row
lists), engine HTTP responses become explicit functions supplied as
parameters, and pandas operations (filter, enumerate-index, inner merge,
concat) become the corresponding total list operations.
-/

namespace RouteOpt

/-- A row submitted to the engine's trip service.  In the source the rows of
the concatenated dataframe `pd.concat([source, route_df])` are either the
warehouse row (no route label) or an address row carrying its route label. -/
inductive Row (α : Type) where
  | depot (payload : α)
  | addr (payload : α) (label : Nat)
  deriving DecidableEq, Repr

/-- The arguments `OSRM.tsp` passes to `OSRM.trip` for one route
(osrm.py lines 553-559). -/
structure TripCall (α : Type) where
  locations : List (Row α)
  roundtrip : Bool
  source : String
  destination : String
  overview : String
  deriving DecidableEq, Repr

/-- One row of the `route_table` dataframe built by `OSRM.tsp`
(osrm.py lines 561-584): the route label and stop count stored by
`path[['route', 'stops']] = [route, stops]`, and the engine's waypoint list
(its entry at position `p` is the `waypoint_index` of the `p`-th submitted
location, the depot being position 0). -/
structure RouteRec where
  route : Nat
  stops : Nat
  waypoint_indices : List Nat
  deriving DecidableEq, Repr

/-- `routes['route'].nunique()`: number of distinct route labels. -/
def nunique {α : Type} (routes : List (α × Nat)) : Nat :=
  (routes.map Prod.snd).dedup.length

/-- `routes[routes['route'] == route]`: the rows whose label equals `r`,
in their original order (osrm.py line 545). -/
def routeSubset {α : Type} (routes : List (α × Nat)) (r : Nat) : List (α × Nat) :=
  routes.filter (fun p => p.2 == r)

/-- The trip call `OSRM.tsp` frames for route label `r` (osrm.py lines
549-559): the warehouse row is prepended by `pd.concat([source, route_df])`,
the row list is truncated by `route_df[:100]`, and the call fixes
`roundtrip=True, source='first', destination='any', overview='full'`. -/
def mkCall {α : Type} (depot : α) (routes : List (α × Nat)) (r : Nat) : TripCall α :=
  { locations :=
      (Row.depot depot :: (routeSubset routes r).map (fun p => Row.addr p.1 p.2)).take 100
    roundtrip := true
    source := "first"
    destination := "any"
    overview := "full" }

/-- The sequencing calls `OSRM.tsp` issues, paired with the route label the
loop variable holds: `for route in range(routes['route'].nunique())`
(osrm.py line 544). -/
def tsp_calls {α : Type} (depot : α) (routes : List (α × Nat)) : List (Nat × TripCall α) :=
  (List.range (nunique routes)).map (fun r => (r, mkCall depot routes r))

/-- `OSRM.tsp` (osrm.py lines 542-589).  `engine` models the trip service:
for a submitted location list it returns the per-location `waypoint_index`
column of the response, or `none` when the response has no `trips` key, in
which case the `except KeyError: continue` skips the route.  `stops` is
`route_df.shape[0]`, computed before the warehouse is prepended and before
the `[:100]` truncation (osrm.py line 547). -/
def tsp {α : Type} (engine : List (Row α) → Option (List Nat))
    (depot : α) (routes : List (α × Nat)) : List RouteRec :=
  (List.range (nunique routes)).filterMap (fun r =>
    (engine (mkCall depot routes r).locations).map (fun ws =>
      { route := r
        stops := (routeSubset routes r).length
        waypoint_indices := ws }))

/-- The loop body of `parse_routes` for one row of `route_table`
(utilities.py lines 270-281): `route_addresses` filters the addresses whose
label equals the row position `i`; `r_index` is the filtered position plus
one; `pd.merge(..., left_on='r_index', right_index=True)` is an inner join
of the `r_index` key against the waypoint list position, keeping left-frame
order and silently dropping unmatched rows on either side. -/
def mergeRoute {α : Type} (rt : RouteRec) (i : Nat)
    (addresses : List (α × Nat)) : List ((α × Nat) × Nat) :=
  ((addresses.filter (fun p => p.2 == i)).enum).filterMap (fun pa =>
    (rt.waypoint_indices[pa.1 + 1]?).map (fun w => (pa.2, w)))

/-- `parse_routes` (utilities.py lines 253-283).  The loop variable `i` of
`route_table.iterrows()` is the dataframe row position (the table is built
with `ignore_index=True`); the per-route merges are concatenated by
`pd.concat([a, t2])`. -/
def parse_routes {α : Type} (route_table : List RouteRec)
    (addresses : List (α × Nat)) : List ((α × Nat) × Nat) :=
  route_table.enum.flatMap (fun irt => mergeRoute irt.2 irt.1 addresses)

/-! ### Matrix Tiler (`OSRM.large_table`, osrm.py lines 271-363)

The engine's table service is modelled by a function `f : Nat → Nat → α`
giving the full origin-destination table: the response to a tile query with
`sources=list(range(start_i, end_i))` and
`destinations=list(range(start_j, end_j))` is the restriction of `f` to
those index ranges, which is exactly the "per-tile engine responses
consistent with a single full N×N table" premise.  Matrix entries are an
opaque type `α` (the code never computes with them, it only places them). -/

/-- `math.ceil(num_locations / 100)` (osrm.py line 295). -/
def ceiling (n : Nat) : Nat := (n + 99) / 100

/-- `start_i = i * 100` (osrm.py line 300). -/
def blockStart (i : Nat) : Nat := i * 100

/-- `end_i = start_i + 100`, clamped to `num_locations` when it overshoots
(osrm.py lines 301, 307-308). -/
def blockEnd (n i : Nat) : Nat := min (i * 100 + 100) n

/-- The engine's response to one tile query: the sub-matrix of the full
table `f` with rows `[si, ei)` and columns `[sj, ej)` (osrm.py lines
319-324). -/
def tileRows {α : Type} (f : Nat → Nat → α) (si ei sj ej : Nat) :
    List (List α) :=
  (List.range' si (ei - si)).map (fun r =>
    (List.range' sj (ej - sj)).map (fun c => f r c))

/-- `np.c_[A, B]`: horizontal concatenation, row by row. -/
def hconcat {α : Type} (A B : List (List α)) : List (List α) :=
  A.zipWith (fun x y => x ++ y) B

/-- The inner loop of `large_table` (osrm.py lines 303-333): one row-block
pass, starting from an empty array of height 100, or `num_locations -
start_i` for the final shorter block (lines 303-310), and appending each
tile on the right with `np.c_`. -/
def rowBlock {α : Type} (f : Nat → Nat → α) (n i : Nat) : List (List α) :=
  (List.range (ceiling n)).foldl
    (fun acc j =>
      hconcat acc (tileRows f (blockStart i) (blockEnd n i)
        (blockStart j) (blockEnd n j)))
    (List.replicate (if n < blockStart i + 100 then n - blockStart i else 100) [])

/-- The outer loop of `large_table` (osrm.py lines 291-341): row blocks are
appended below with `np.r_`, starting from an empty 0-row array. -/
def assemble {α : Type} (f : Nat → Nat → α) (n : Nat) : List (List α) :=
  (List.range (ceiling n)).foldl (fun acc i => acc ++ rowBlock f n i) []

/-- `OSRM.large_table` (osrm.py lines 271-363): the pair of assembled
matrices (durations, distances) built from the tile responses.  The two
annotations come back in one response per tile; they are modelled as two
full tables `fdur` and `fdist`.  (The `np.savetxt` persistence is I/O and
not part of the assembled values.) -/
def large_table {α : Type} (fdur fdist : Nat → Nat → α) (n : Nat) :
    List (List α) × List (List α) :=
  (assemble fdur n, assemble fdist n)

/-- The matrix a single unbounded table call over all `n` locations would
return: row `r`, column `c` holds `f r c`. -/
def fullTable {α : Type} (f : Nat → Nat → α) (n : Nat) : List (List α) :=
  (List.range n).map (fun r => (List.range n).map (fun c => f r c))

/-! ### Route Partitioner (`label_routes`, utilities.py lines 214-250)

`label_routes` pipes the matrix through sklearn's `MinMaxScaler` and
`AgglomerativeClustering(n_clusters=n_routes, affinity='precomputed',
linkage='complete')`.  The sklearn semantics are embedded: `MinMaxScaler`
rescales each column to `[0, 1]` (a zero column range is replaced by 1);
`AgglomerativeClustering` raises a `ValueError` when `n_clusters ≤ 0` or
`n_clusters > n_samples`, and otherwise greedily merges the two clusters at
minimal complete-linkage distance, starting from singletons, until
`n_clusters` clusters remain; `labels_` assigns every sample the index of
its final cluster. -/

/-- Column `j` of the matrix (missing entries default to 0). -/
def column (m : List (List ℚ)) (j : Nat) : List ℚ :=
  m.map (fun row => row.getD j 0)

/-- Minimum of a list of rationals (0 for the empty list). -/
def listMin : List ℚ → ℚ
  | [] => 0
  | x :: xs => xs.foldl min x

/-- Maximum of a list of rationals (0 for the empty list). -/
def listMax : List ℚ → ℚ
  | [] => 0
  | x :: xs => xs.foldl max x

/-- sklearn `MinMaxScaler` with the default feature range `(0, 1)`:
`x ↦ (x - col_min) / (col_max - col_min)` columnwise, a zero denominator
being replaced by 1. -/
def minMaxScale (m : List (List ℚ)) : List (List ℚ) :=
  m.map (fun row => row.enum.map (fun jx =>
    (jx.2 - listMin (column m jx.1)) /
      (if listMax (column m jx.1) = listMin (column m jx.1) then 1
       else listMax (column m jx.1) - listMin (column m jx.1))))

/-- Dissimilarity lookup in a precomputed matrix. -/
def dOf (m : List (List ℚ)) (i j : Nat) : ℚ := (m.getD i []).getD j 0

/-- Complete linkage: the maximum pairwise dissimilarity between members of
the two clusters. -/
def completeLinkage (d : Nat → Nat → ℚ) (c₁ c₂ : List Nat) : ℚ :=
  listMax (c₁.flatMap (fun a => c₂.map (fun b => d a b)))

/-- All index pairs `(i, j)` with `i < j < m`: the candidate cluster pairs
for one agglomeration step. -/
def clusterPairs (m : Nat) : List (Nat × Nat) :=
  (List.range m).flatMap (fun i =>
    (List.range m).filterMap (fun j => if i < j then some (i, j) else none))

/-- One agglomeration step: merge the two clusters at minimal
complete-linkage distance (no step if fewer than two clusters remain). -/
def mergeStep (d : Nat → Nat → ℚ) (cs : List (List Nat)) : List (List Nat) :=
  match (clusterPairs cs.length).argmin
      (fun p => completeLinkage d (cs.getD p.1 []) (cs.getD p.2 [])) with
  | none => cs
  | some (i, j) => ((cs.eraseIdx j).eraseIdx i) ++ [cs.getD i [] ++ cs.getD j []]

/-- The starting partition: one singleton cluster per sample. -/
def singletons (n : Nat) : List (List Nat) :=
  (List.range n).map (fun a => [a])

/-- Agglomerative clustering over `n` samples down to `K` clusters:
`n - K` greedy merge steps from the singleton partition. -/
def agglomerate (d : Nat → Nat → ℚ) (n K : Nat) : List (List Nat) :=
  (mergeStep d)^[n - K] (singletons n)

/-- `labels_`: sample `a` is labelled with the index of its cluster. -/
def clusterLabels (cs : List (List Nat)) (n : Nat) : List Nat :=
  (List.range n).map (fun a => cs.findIdx (fun c => c.contains a))

/-- `label_routes` (utilities.py lines 214-250): scale the matrix, run
complete-linkage agglomerative clustering to `n_routes` clusters, and
return the per-address labels; a `ValueError` from sklearn (`n_routes`
outside `[1, n_samples]`) is modelled as an `Except.error`. -/
def label_routes (n_routes : Nat) (matrix : List (List ℚ)) :
    Except String (List Nat) :=
  if n_routes = 0 ∨ matrix.length < n_routes then
    .error "Cannot extract more clusters than samples"
  else
    .ok (clusterLabels
      (agglomerate (dOf (minMaxScale matrix)) matrix.length n_routes)
      matrix.length)

/-- The well-formedness invariant maintained by agglomeration: clusters are
nonempty, pairwise disjoint, and together cover exactly the samples
`[0, n)`. -/
def ClustersOK (n : Nat) (cs : List (List Nat)) : Prop :=
  (∀ c ∈ cs, c ≠ []) ∧
  cs.Pairwise (fun c₁ c₂ => ∀ a, a ∈ c₁ → a ∉ c₂) ∧
  (∀ a : Nat, (∃ c ∈ cs, a ∈ c) ↔ a < n)

/-! ### Concrete inputs used by counterexample and code-bug theorems -/

/-- A single route (label 0) of 101 addresses, numbered 0 to 100: one more
than the engine's 100-location trip cap once the depot is added. -/
def routes101 : List (Nat × Nat) := (List.range 101).map (fun k => (k, 0))

/-- Two routes with labels 0 and 1, one address each. -/
def routesTwo : List (Nat × Nat) := [(10, 0), (20, 1)]

/-- An engine whose trip service finds no feasible trip for the route
containing address 10 (route label 0) and answers the waypoint list
`[0, 1]` for every other call. -/
def engFailRoute0 (locs : List (Row Nat)) : Option (List Nat) :=
  if locs.contains (Row.addr 10 0) then none else some [0, 1]

/-! ## Theorems -/

/-- Helper: the inner join of positions `s, s+1, ...` (each shifted by one
for the depot) against a waypoint list keeps exactly
`min (#addresses) (#waypoints - 1 - s)` rows. -/
theorem filterMap_enumFrom_length {α : Type} (l : List α) (s : Nat)
    (ws : List Nat) :
    ((l.enumFrom s).filterMap (fun pa =>
        (ws[pa.1 + 1]?).map (fun w => (pa.2, w)))).length
      = min l.length (ws.length - 1 - s) := by
  induction l generalizing s with
  | nil => simp
  | cons x xs ih =>
    simp only [List.enumFrom, List.filterMap_cons]
    by_cases h : s + 1 < ws.length
    · rw [List.getElem?_eq_getElem h]
      simp only [Option.map_some', List.length_cons, ih (s + 1)]
      omega
    · rw [List.getElem?_eq_none (by omega)]
      simp only [Option.map_none', ih (s + 1), List.length_cons]
      omega

/-- Helper: the length of one route's merge is the inner-join row count. -/
theorem mergeRoute_length {α : Type} (rt : RouteRec) (i : Nat)
    (addresses : List (α × Nat)) :
    (mergeRoute rt i addresses).length
      = min (addresses.filter (fun p => p.2 == i)).length
          (rt.waypoint_indices.length - 1) := by
  have h := filterMap_enumFrom_length
    (addresses.filter (fun p => p.2 == i)) 0 rt.waypoint_indices
  simpa [mergeRoute, List.enum] using h

/-- C8: for every route it sequences, `OSRM.tsp` frames the engine trip
call with the depot as the first element of the submitted location list, a
round trip requested, the tour start fixed to the depot (`source='first'`)
and the end left open (`destination='any'`). -/
theorem tsp_call_framing {α : Type} (depot : α) (routes : List (α × Nat))
    (rc : Nat × TripCall α) (h : rc ∈ tsp_calls depot routes) :
    rc.2.locations.head? = some (Row.depot depot) ∧
    rc.2.roundtrip = true ∧ rc.2.source = "first" ∧
    rc.2.destination = "any" := by
  simp only [tsp_calls, List.mem_map, List.mem_range] at h
  obtain ⟨r, _, rfl⟩ := h
  refine ⟨?_, rfl, rfl, rfl⟩
  simp [mkCall, show (100 : Nat) = 99 + 1 from rfl, List.take_succ_cons]

/-- Witness for C8 at a concrete one-route input. -/
theorem tsp_call_framing_witness :
    (((0, mkCall 7 [(5, 0)] 0) : Nat × TripCall Nat) ∈ tsp_calls 7 [(5, 0)]) ∧
    ((0, mkCall 7 [(5, 0)] 0) : Nat × TripCall Nat).2.locations.head?
        = some (Row.depot 7) ∧
    ((0, mkCall 7 [(5, 0)] 0) : Nat × TripCall Nat).2.roundtrip = true ∧
    ((0, mkCall 7 [(5, 0)] 0) : Nat × TripCall Nat).2.source = "first" ∧
    ((0, mkCall 7 [(5, 0)] 0) : Nat × TripCall Nat).2.destination = "any" :=
  ⟨by decide, tsp_call_framing 7 [(5, 0)] (0, mkCall 7 [(5, 0)] 0) (by decide)⟩

/-- C9: the `stops` value of every record in the route table produced by
`OSRM.tsp` equals the number of addresses whose label is that record's
route — the count is taken before the depot is prepended and before the
`[:100]` truncation. -/
theorem tsp_stops_count {α : Type} (engine : List (Row α) → Option (List Nat))
    (depot : α) (routes : List (α × Nat)) (rec : RouteRec)
    (h : rec ∈ tsp engine depot routes) :
    rec.stops = (routeSubset routes rec.route).length := by
  simp only [tsp, List.mem_filterMap, List.mem_range, Option.map_eq_some'] at h
  obtain ⟨r, _, ws, _, rfl⟩ := h
  rfl

/-- Witness for C9 at a concrete one-route input. -/
theorem tsp_stops_count_witness :
    ((⟨0, 1, [0, 1]⟩ : RouteRec)
        ∈ tsp (fun _ => some [0, 1]) (7 : Nat) [(5, 0)]) ∧
    (⟨0, 1, [0, 1]⟩ : RouteRec).stops
        = (routeSubset [((5 : Nat), 0)] (⟨0, 1, [0, 1]⟩ : RouteRec).route).length :=
  ⟨by decide,
   tsp_stops_count (fun _ => some [0, 1]) 7 [(5, 0)] ⟨0, 1, [0, 1]⟩ (by decide)⟩

/-- C2: with addresses `[A, B, C]` submitted as `[Depot, A, B, C]` and an
engine waypoint reply `[0, 2, 3, 1]` for those four positions,
`parse_routes` assigns A rank 2, B rank 3 and C rank 1: alignment is by
submission position with the depot excluded as position 0. -/
theorem parse_routes_alignment {α : Type} (A B C : α) (rt : RouteRec)
    (hws : rt.waypoint_indices = [0, 2, 3, 1]) :
    parse_routes [rt] [(A, 0), (B, 0), (C, 0)]
      = [((A, 0), 2), ((B, 0), 3), ((C, 0), 1)] := by
  obtain ⟨r, s, ws⟩ := rt
  simp only at hws
  subst hws
  rfl

/-- Witness for C2 at concrete addresses. -/
theorem parse_routes_alignment_witness :
    (⟨0, 3, [0, 2, 3, 1]⟩ : RouteRec).waypoint_indices = [0, 2, 3, 1] ∧
    parse_routes [⟨0, 3, [0, 2, 3, 1]⟩] [((1 : Nat), 0), (2, 0), (3, 0)]
      = [((1, 0), 2), ((2, 0), 3), ((3, 0), 1)] :=
  ⟨rfl, parse_routes_alignment 1 2 3 ⟨0, 3, [0, 2, 3, 1]⟩ rfl⟩

/-- Counterexample to C3: three addresses are submitted for route 0 but the
engine reply has only three waypoint entries (depot plus two addresses);
`parse_routes` neither fails nor signals anything — it returns the partial
inner-join merge and silently drops the third address. -/
theorem parse_routes_mismatch_counterexample :
    parse_routes [⟨0, 3, [0, 2, 1]⟩] [((1 : Nat), 0), (2, 0), (3, 0)]
      = [((1, 0), 2), ((2, 0), 1)] ∧
    ∀ w, ((3, 0), w)
        ∉ parse_routes [⟨0, 3, [0, 2, 1]⟩] [((1 : Nat), 0), (2, 0), (3, 0)] := by
  refine ⟨rfl, fun w hw => ?_⟩
  rw [show parse_routes [⟨0, 3, [0, 2, 1]⟩] [((1 : Nat), 0), (2, 0), (3, 0)]
      = [((1, 0), 2), ((2, 0), 1)] from rfl] at hw
  simp at hw

/-- C3 as amended: on a count mismatch the merge is a silent best-effort
inner join — the number of merged rows for the route is the minimum of the
address count and the waypoint count excluding the depot, so the unmatched
side is dropped without any error. -/
theorem parse_routes_mismatch_amended {α : Type} (rt : RouteRec) (i : Nat)
    (addresses : List (α × Nat))
    (hmis : (addresses.filter (fun p => p.2 == i)).length
      ≠ rt.waypoint_indices.length - 1) :
    (mergeRoute rt i addresses).length
        = min (addresses.filter (fun p => p.2 == i)).length
            (rt.waypoint_indices.length - 1) ∧
    min (addresses.filter (fun p => p.2 == i)).length
        (rt.waypoint_indices.length - 1)
      < max (addresses.filter (fun p => p.2 == i)).length
          (rt.waypoint_indices.length - 1) := by
  constructor
  · have := mergeRoute_length rt i addresses
    simpa using this
  · omega

/-- Witness for the amended C3 at the concrete mismatched input. -/
theorem parse_routes_mismatch_amended_witness :
    (([((1 : Nat), 0), (2, 0), (3, 0)].filter (fun p => p.2 == 0)).length
        ≠ (⟨0, 3, [0, 2, 1]⟩ : RouteRec).waypoint_indices.length - 1) ∧
    ((mergeRoute (⟨0, 3, [0, 2, 1]⟩ : RouteRec) 0
          [((1 : Nat), 0), (2, 0), (3, 0)]).length
        = min (([((1 : Nat), 0), (2, 0), (3, 0)].filter
              (fun p => p.2 == 0)).length)
            ((⟨0, 3, [0, 2, 1]⟩ : RouteRec).waypoint_indices.length - 1) ∧
      min (([((1 : Nat), 0), (2, 0), (3, 0)].filter
            (fun p => p.2 == 0)).length)
          ((⟨0, 3, [0, 2, 1]⟩ : RouteRec).waypoint_indices.length - 1)
        < max (([((1 : Nat), 0), (2, 0), (3, 0)].filter
              (fun p => p.2 == 0)).length)
            ((⟨0, 3, [0, 2, 1]⟩ : RouteRec).waypoint_indices.length - 1)) :=
  ⟨by decide,
   parse_routes_mismatch_amended ⟨0, 3, [0, 2, 1]⟩ 0
     [((1 : Nat), 0), (2, 0), (3, 0)] (by decide)⟩

/-- C4 (code bug): a route of 101 addresses plus the depot is silently
truncated by `route_df[:100]` to the first 100 submitted rows — address 100
is assigned to the route but absent from the trip call, and the output
record signals nothing (its `stops` field still reads 101). -/
theorem tsp_truncates_at_101 :
    (mkCall (999 : Nat) routes101 0).locations.length = 100 ∧
    ((100, 0) : Nat × Nat) ∈ routes101 ∧
    Row.addr 100 0 ∉ (mkCall (999 : Nat) routes101 0).locations ∧
    (tsp (fun _ => some (List.range 100)) (999 : Nat) routes101).map
        RouteRec.stops = [101] := by
  set_option maxRecDepth 4000 in decide

/-- C5 (code bug): with routes 0 and 1 and a trip failure on route 0,
`OSRM.tsp` does continue with route 1, but the route table row for route 1
lands at dataframe position 0 (`ignore_index=True`), so `parse_routes`
joins route 1's waypoints onto route 0's addresses: address 10 (the failed
route) receives waypoint rank 1 from route 1's reply, address 20 (the
surviving route) is dropped, and no failed-route report exists anywhere in
the output. -/
theorem tsp_failure_misalignment :
    tsp engFailRoute0 (0 : Nat) routesTwo = [⟨1, 1, [0, 1]⟩] ∧
    parse_routes (tsp engFailRoute0 (0 : Nat) routesTwo) routesTwo
      = [(((10 : Nat), 0), 1)] := by
  decide

/-- C7: a route count exceeding the address count — including the corner
case of fewer than two addresses with more than one route requested — makes
`label_routes` surface sklearn's `ValueError` to the caller; the result is
an error, not a silently clamped clustering. -/
theorem label_routes_rejects_bad_K (matrix : List (List ℚ)) (K : Nat)
    (h : matrix.length < K ∨ (matrix.length < 2 ∧ 2 ≤ K)) :
    label_routes K matrix
      = .error "Cannot extract more clusters than samples" := by
  have hlt : matrix.length < K := by omega
  unfold label_routes
  rw [if_pos (Or.inr hlt)]

/-- Witness for C7 at a one-address matrix with two routes requested. -/
theorem label_routes_rejects_bad_K_witness :
    ([[(0 : ℚ)]].length < 2 ∨ ([[(0 : ℚ)]].length < 2 ∧ 2 ≤ 2)) ∧
    label_routes 2 [[(0 : ℚ)]]
      = .error "Cannot extract more clusters than samples" :=
  ⟨Or.inl (by decide), label_routes_rejects_bad_K [[(0 : ℚ)]] 2 (Or.inl (by decide))⟩

/-- C10: `OSRM.tsp` issues one sequencing call per label in
`[0, nunique)`: when the label set is exactly `{0, ..., K-1}` the calls
carry each label exactly once (their label list is `range K`), and an
address whose label lies at or beyond `nunique` is included in no call's
location list. -/
theorem tsp_calls_per_label {α : Type} (depot : α) (routes : List (α × Nat))
    (K : Nat) :
    (((∀ l ∈ routes.map Prod.snd, l < K) ∧
        (∀ l < K, l ∈ routes.map Prod.snd)) →
      (tsp_calls depot routes).map Prod.fst = List.range K) ∧
    (∀ p ∈ routes, nunique routes ≤ p.2 →
      ∀ rc ∈ tsp_calls depot routes, Row.addr p.1 p.2 ∉ rc.2.locations) := by
  constructor
  · rintro ⟨h1, h2⟩
    have hperm : List.Perm (routes.map Prod.snd).dedup (List.range K) := by
      rw [List.perm_ext_iff_of_nodup
        (List.nodup_dedup (routes.map Prod.snd)) (List.nodup_range K)]
      intro l
      simp only [List.mem_dedup, List.mem_range]
      exact ⟨fun hl => h1 l hl, fun hl => h2 l hl⟩
    have hn : nunique routes = K := by
      unfold nunique
      rw [hperm.length_eq, List.length_range]
    simp [tsp_calls, hn, List.map_map, Function.comp_def]
  · rintro ⟨x, lx⟩ hp hge rc hrc hmem
    simp only [tsp_calls, List.mem_map, List.mem_range] at hrc
    obtain ⟨r, hr, rfl⟩ := hrc
    have hmem2 : Row.addr x lx ∈
        Row.depot depot ::
          (routeSubset routes r).map (fun p => Row.addr p.1 p.2) :=
      List.mem_of_mem_take hmem
    simp only [List.mem_cons, List.mem_map] at hmem2
    rcases hmem2 with h | ⟨q, hq, hEq⟩
    · exact Row.noConfusion h
    · injection hEq with e1 e2
      have hq2 : q.2 = r := by
        have := (List.mem_filter.mp hq).2
        simpa using this
      omega

/-- Witness for C10: a contiguous two-label input whose call labels are
`range 2`, and an input with the non-contiguous label set `{0, 5}` whose
out-of-range address `(7, 5)` appears in no call. -/
theorem tsp_calls_per_label_witness :
    ((tsp_calls (0 : Nat) [(5, 0), (6, 1)]).map Prod.fst = List.range 2) ∧
    Row.addr 7 5 ∉ (0, mkCall (0 : Nat) [(5, 0), (7, 5)] 0).2.locations :=
  ⟨(tsp_calls_per_label 0 [(5, 0), (6, 1)] 2).1 (by decide),
   (tsp_calls_per_label 0 [(5, 0), (7, 5)] 0).2 (7, 5) (by decide) (by decide)
     (0, mkCall (0 : Nat) [(5, 0), (7, 5)] 0) (by decide)⟩

/-- Helper: `np.c_` of two equally-tall matrices built over the same row
list concatenates row by row. -/
theorem hconcat_map_map {α β : Type} (l : List β) (g h : β → List α) :
    hconcat (l.map g) (l.map h) = l.map (fun r => g r ++ h r) := by
  unfold hconcat
  induction l with
  | nil => rfl
  | cons x xs ih => simp [ih]

/-- Helper: a row-block pass — folding `np.c_` over tiles that share the
row list — appends each row's tile segments left to right. -/
theorem foldl_hconcat {α β : Type} (js : List Nat) (rows : List β)
    (g : Nat → β → List α) (accf : β → List α) :
    js.foldl (fun acc j => hconcat acc (rows.map (fun r => g j r)))
        (rows.map accf)
      = rows.map (fun r => accf r ++ js.flatMap (fun j => g j r)) := by
  induction js generalizing accf with
  | nil => simp
  | cons j rest ih =>
    simp only [List.foldl_cons]
    rw [hconcat_map_map, ih]
    simp [List.append_assoc]

/-- Helper: folding list append is concatenation. -/
theorem foldl_append_flatMap {α β : Type} (js : List β) (g : β → List α)
    (a : List α) :
    js.foldl (fun acc j => acc ++ g j) a = a ++ js.flatMap g := by
  induction js generalizing a with
  | nil => simp
  | cons j rest ih => simp only [List.foldl_cons, List.flatMap_cons, ih,
      List.append_assoc]

/-- Helper: the consecutive blocks `[i*100, min(i*100+100, n))` for
`i < m` concatenate to the contiguous index range `[0, min (m*100) n)`:
no gaps, no overlaps, the final block clamped to the remainder. -/
theorem range_flatMap_blocks (n m : Nat) :
    (List.range m).flatMap
        (fun j => List.range' (blockStart j) (blockEnd n j - blockStart j))
      = List.range' 0 (min (m * 100) n) := by
  induction m with
  | zero => simp
  | succ m ih =>
    rw [List.range_succ, List.flatMap_append, ih]
    simp only [List.flatMap_cons, List.flatMap_nil, List.append_nil]
    rcases le_or_lt (m * 100) n with h | h
    · rw [Nat.min_eq_left h]
      rw [show blockStart m = m * 100 from rfl]
      have happ := List.range'_append_1 0 (m * 100)
        (blockEnd n m - m * 100)
      rw [Nat.zero_add] at happ
      rw [happ]
      congr 1
      simp only [blockEnd, blockStart]
      omega
    · have h0 : blockEnd n m - blockStart m = 0 := by
        simp only [blockEnd, blockStart]
        omega
      rw [h0, show List.range' (blockStart m) 0 = [] from rfl,
        List.append_nil]
      congr 1
      omega

/-- Helper: `n` locations fit inside `ceil(n/100)` blocks of 100. -/
theorem min_ceiling_mul (n : Nat) : min (ceiling n * 100) n = n := by
  simp only [ceiling]
  omega

/-- Helper: mapping any function over the concatenated blocks is mapping it
over the full index range. -/
theorem flatMap_blocks_map {α : Type} (n : Nat) (g : Nat → α) :
    (List.range (ceiling n)).flatMap
        (fun j =>
          (List.range' (blockStart j) (blockEnd n j - blockStart j)).map g)
      = (List.range n).map g := by
  rw [← List.map_flatMap, range_flatMap_blocks, min_ceiling_mul,
    ← List.range_eq_range']

/-- Helper: one row-block pass of `large_table` produces, for every row of
its block, the full matrix row over all `n` columns. -/
theorem rowBlock_eq {α : Type} (f : Nat → Nat → α) (n i : Nat) :
    rowBlock f n i
      = (List.range' (blockStart i) (blockEnd n i - blockStart i)).map
          (fun r => (List.range n).map (fun c => f r c)) := by
  unfold rowBlock
  simp only [tileRows]
  rw [show (if n < blockStart i + 100 then n - blockStart i else 100)
      = blockEnd n i - blockStart i by
    simp only [blockEnd, blockStart]
    split <;> omega]
  rw [show List.replicate (blockEnd n i - blockStart i) ([] : List α)
      = (List.range' (blockStart i) (blockEnd n i - blockStart i)).map
          (fun _ => []) by
    rw [List.map_const', List.length_range']]
  rw [foldl_hconcat (List.range (ceiling n))
    (List.range' (blockStart i) (blockEnd n i - blockStart i))
    (fun j r =>
      (List.range' (blockStart j) (blockEnd n j - blockStart j)).map
        (fun c => f r c))
    (fun _ => [])]
  simp only [List.nil_append, flatMap_blocks_map]

/-- Helper: the assembled matrix equals the unbounded full table. -/
theorem assemble_eq {α : Type} (f : Nat → Nat → α) (n : Nat) :
    assemble f n = fullTable f n := by
  unfold assemble
  rw [foldl_append_flatMap, List.nil_append]
  have hrw : rowBlock f n = fun i =>
      (List.range' (blockStart i) (blockEnd n i - blockStart i)).map
        (fun r => (List.range n).map (fun c => f r c)) :=
    funext (rowBlock_eq f n)
  rw [hrw, flatMap_blocks_map]
  rfl

/-- C1: for every location count `n` and every full table the per-tile
engine responses are consistent with, `large_table` assembles duration and
distance matrices equal cell for cell to the single unbounded table call,
and its blocks concatenate to exactly the index range `[0, n)` — no gaps,
no overlaps, the final block sized to the remainder rather than padded. -/
theorem large_table_lossless {α : Type} (fdur fdist : Nat → Nat → α)
    (n : Nat) :
    large_table fdur fdist n = (fullTable fdur n, fullTable fdist n) ∧
    (List.range (ceiling n)).flatMap
        (fun i => List.range' (blockStart i) (blockEnd n i - blockStart i))
      = List.range n := by
  refine ⟨?_, ?_⟩
  · unfold large_table
    rw [assemble_eq, assemble_eq]
  · rw [range_flatMap_blocks, min_ceiling_mul, ← List.range_eq_range']

/-- Helper: removing position `i` and putting the removed cluster back in
front is a permutation. -/
theorem perm_getD_cons_eraseIdx {α : Type} (d : α) (l : List α) :
    ∀ (i : Nat), i < l.length → List.Perm l (l.getD i d :: l.eraseIdx i) := by
  induction l with
  | nil => intro i h; simp at h
  | cons x xs ih =>
    intro i h
    cases i with
    | zero => exact List.Perm.refl _
    | succ k =>
      have hk : k < xs.length := by simpa using h
      have h2 : List.Perm (x :: xs) (x :: xs.getD k d :: xs.eraseIdx k) :=
        (ih k hk).cons x
      exact h2.trans (List.Perm.swap (xs.getD k d) x (xs.eraseIdx k))

/-- Helper: membership in the candidate pair list. -/
theorem mem_clusterPairs {p : Nat × Nat} {m : Nat} :
    p ∈ clusterPairs m ↔ p.1 < p.2 ∧ p.2 < m := by
  obtain ⟨i, j⟩ := p
  simp only [clusterPairs, List.mem_flatMap, List.mem_filterMap,
    List.mem_range]
  constructor
  · rintro ⟨a, _, b, hb, hab⟩
    split at hab
    · obtain ⟨rfl, rfl⟩ := Prod.mk.injEq .. ▸ Option.some.injEq .. ▸ hab
      exact ⟨by assumption, hb⟩
    · exact absurd hab (by simp)
  · rintro ⟨hij, hj⟩
    exact ⟨i, Nat.lt_trans hij hj, j, hj, by rw [if_pos hij]⟩

/-- Helper: when at least two clusters remain, one merge step removes
exactly one cluster. -/
theorem mergeStep_length (d : Nat → Nat → ℚ) (cs : List (List Nat))
    (h : 2 ≤ cs.length) : (mergeStep d cs).length = cs.length - 1 := by
  unfold mergeStep
  split
  · next heq =>
    exfalso
    have h01 : ((0, 1) : Nat × Nat) ∈ clusterPairs cs.length :=
      mem_clusterPairs.mpr ⟨by omega, by omega⟩
    rw [List.argmin_eq_none.mp heq] at h01
    simp at h01
  · next i j heq =>
    have hp := List.argmin_mem (Option.mem_def.mpr heq)
    obtain ⟨hij, hj⟩ := mem_clusterPairs.mp hp
    have hj' : (cs.eraseIdx j).length = cs.length - 1 :=
      List.length_eraseIdx_of_lt hj
    have hi : i < (cs.eraseIdx j).length := by omega
    have hi' := List.length_eraseIdx_of_lt hi
    simp only [List.length_append, List.length_cons, List.length_nil, hi',
      hj']
    omega

/-- Helper: the singleton partition is well-formed. -/
theorem clustersOK_singletons (n : Nat) : ClustersOK n (singletons n) := by
  refine ⟨?_, ?_, ?_⟩
  · intro c hc
    simp only [singletons, List.mem_map, List.mem_range] at hc
    obtain ⟨a, _, rfl⟩ := hc
    simp
  · have hnd : List.Pairwise (fun a b => a ≠ b) (List.range n) :=
      List.nodup_range n
    exact hnd.map _ (fun a b hab x hx1 hx2 => by
      simp only [List.mem_singleton] at hx1 hx2
      exact hab (hx1 ▸ hx2 ▸ rfl))
  · intro a
    simp only [singletons, List.mem_map, List.mem_range]
    constructor
    · rintro ⟨c, ⟨b, hb, rfl⟩, hac⟩
      simp only [List.mem_singleton] at hac
      omega
    · intro h
      exact ⟨[a], ⟨a, h, rfl⟩, by simp⟩

/-- Helper: one merge step preserves well-formedness of the partition. -/
theorem clustersOK_mergeStep (d : Nat → Nat → ℚ) (n : Nat)
    (cs : List (List Nat)) (h : ClustersOK n cs) :
    ClustersOK n (mergeStep d cs) := by
  obtain ⟨hne, hpw, hcov⟩ := h
  unfold mergeStep
  split
  · exact ⟨hne, hpw, hcov⟩
  · next i j heq =>
    have hp := List.argmin_mem (Option.mem_def.mpr heq)
    obtain ⟨hij, hj⟩ := mem_clusterPairs.mp hp
    have hi_len : i < (cs.eraseIdx j).length := by
      rw [List.length_eraseIdx_of_lt hj]
      omega
    have p1 : List.Perm cs (cs.getD j [] :: cs.eraseIdx j) :=
      perm_getD_cons_eraseIdx [] cs j hj
    have hgd : (cs.eraseIdx j).getD i [] = cs.getD i [] := by
      rw [List.getD_eq_getElem?_getD, List.getD_eq_getElem?_getD,
        List.getElem?_eraseIdx_of_lt cs j i hij]
    have p2 : List.Perm (cs.eraseIdx j)
        (cs.getD i [] :: (cs.eraseIdx j).eraseIdx i) := by
      have h0 := perm_getD_cons_eraseIdx [] (cs.eraseIdx j) i hi_len
      rwa [hgd] at h0
    have p3 : List.Perm cs
        (cs.getD i [] :: cs.getD j [] :: (cs.eraseIdx j).eraseIdx i) :=
      (p1.trans ((p2.cons (cs.getD j [])))).trans
        (List.Perm.swap (cs.getD i []) (cs.getD j [])
          ((cs.eraseIdx j).eraseIdx i))
    have hSymm : ∀ {c₁ c₂ : List Nat},
        (∀ a, a ∈ c₁ → a ∉ c₂) → (∀ a, a ∈ c₂ → a ∉ c₁) :=
      fun h12 a ha2 ha1 => h12 a ha1 ha2
    have hpw3 : List.Pairwise (fun c₁ c₂ => ∀ a, a ∈ c₁ → a ∉ c₂)
        (cs.getD i [] :: cs.getD j [] :: (cs.eraseIdx j).eraseIdx i) :=
      (List.Perm.pairwise_iff hSymm p3).mp hpw
    rw [List.pairwise_cons, List.pairwise_cons] at hpw3
    obtain ⟨hci, hcj, hrest⟩ := hpw3
    refine ⟨?_, ?_, ?_⟩
    · intro c hc
      rcases List.mem_append.mp hc with hc | hc
      · exact hne c (p3.mem_iff.mpr (by simp [hc]))
      · simp only [List.mem_singleton] at hc
        subst hc
        have hine : cs.getD i [] ≠ [] :=
          hne _ (p3.mem_iff.mpr (by simp))
        intro hcontra
        exact hine (List.append_eq_nil.mp hcontra).1
    · rw [List.pairwise_append]
      refine ⟨hrest, List.pairwise_singleton _ _, ?_⟩
      intro c hc x hx
      simp only [List.mem_singleton] at hx
      subst hx
      intro a hac hamem
      rcases List.mem_append.mp hamem with hai | haj
      · exact hci _ (List.mem_cons.mpr (Or.inr hc)) a hai hac
      · exact hcj _ hc a haj hac
    · intro a
      rw [← hcov a]
      constructor
      · rintro ⟨c, hc, hac⟩
        rcases List.mem_append.mp hc with hc | hc
        · exact ⟨c, p3.mem_iff.mpr (by simp [hc]), hac⟩
        · simp only [List.mem_singleton] at hc
          subst hc
          rcases List.mem_append.mp hac with hai | haj
          · exact ⟨cs.getD i [], p3.mem_iff.mpr (by simp), hai⟩
          · exact ⟨cs.getD j [], p3.mem_iff.mpr (by simp), haj⟩
      · rintro ⟨c, hc, hac⟩
        have hc3 := p3.mem_iff.mp hc
        simp only [List.mem_cons] at hc3
        rcases hc3 with rfl | rfl | hcr
        · exact ⟨cs.getD i [] ++ cs.getD j [],
            List.mem_append.mpr (Or.inr (by simp)),
            List.mem_append.mpr (Or.inl hac)⟩
        · exact ⟨cs.getD i [] ++ cs.getD j [],
            List.mem_append.mpr (Or.inr (by simp)),
            List.mem_append.mpr (Or.inr hac)⟩
        · exact ⟨c, List.mem_append.mpr (Or.inl hcr), hac⟩

/-- Helper: after `n - K` merge steps exactly `K` well-formed clusters
remain. -/
theorem agglomerate_spec (d : Nat → Nat → ℚ) (n K : Nat) (hK : 1 ≤ K)
    (hKn : K ≤ n) :
    (agglomerate d n K).length = K ∧ ClustersOK n (agglomerate d n K) := by
  have main : ∀ t, t ≤ n - K →
      ((mergeStep d)^[t] (singletons n)).length = n - t ∧
      ClustersOK n ((mergeStep d)^[t] (singletons n)) := by
    intro t
    induction t with
    | zero =>
      intro _
      refine ⟨?_, clustersOK_singletons n⟩
      simp [singletons]
    | succ t ih =>
      intro ht
      obtain ⟨hlen, hok⟩ := ih (by omega)
      rw [Function.iterate_succ_apply']
      refine ⟨?_, clustersOK_mergeStep d n _ hok⟩
      rw [mergeStep_length d _ (by omega), hlen]
      omega
  have hfin := main (n - K) le_rfl
  unfold agglomerate
  rw [show n - (n - K) = K by omega] at hfin
  exact hfin

/-- Helper: labelling a well-formed `K`-cluster partition gives every
sample a label below `K`, and every label below `K` occurs. -/
theorem clusterLabels_spec (n K : Nat) (cs : List (List Nat))
    (hok : ClustersOK n cs) (hlen : cs.length = K) :
    (clusterLabels cs n).length = n ∧
    (∀ l ∈ clusterLabels cs n, l < K) ∧
    (∀ k < K, k ∈ clusterLabels cs n) := by
  obtain ⟨hne, hpw, hcov⟩ := hok
  refine ⟨by simp [clusterLabels], ?_, ?_⟩
  · intro l hl
    simp only [clusterLabels, List.mem_map, List.mem_range] at hl
    obtain ⟨a, ha, rfl⟩ := hl
    obtain ⟨c, hc, hac⟩ := (hcov a).mpr ha
    have hfi : cs.findIdx (fun c => c.contains a) < cs.length :=
      List.findIdx_lt_length_of_exists ⟨c, hc, by simpa using hac⟩
    omega
  · intro k hk
    have hklen : k < cs.length := by omega
    have hcne : cs[k] ≠ [] := hne _ (cs.getElem_mem hklen)
    obtain ⟨a, hak⟩ := List.exists_mem_of_ne_nil cs[k] hcne
    have han : a < n := (hcov a).mp ⟨cs[k], cs.getElem_mem hklen, hak⟩
    have hfind : cs.findIdx (fun c => c.contains a) = k := by
      rw [List.findIdx_eq hklen]
      refine ⟨by simpa using hak, ?_⟩
      intro m hm
      have hdis : ∀ x ∈ cs[m], x ∉ cs[k] :=
        List.pairwise_iff_getElem.mp hpw m k (by omega) (by omega) hm
      have : a ∉ cs[m] := fun hcon => hdis a hcon hak
      simpa using this
    simp only [clusterLabels, List.mem_map, List.mem_range]
    exact ⟨a, han, hfind⟩

/-- C6: for every address-only dissimilarity matrix over `n` addresses and
every `K` with `1 ≤ K ≤ n`, `label_routes` returns one label per address
(a list of length `n`), each label in `[0, K)`, and all `K` labels
occurring — a partition of the addresses into exactly `K` routes. -/
theorem label_routes_partition (matrix : List (List ℚ)) (K : Nat)
    (h1 : 1 ≤ K) (h2 : K ≤ matrix.length) :
    ∃ ls, label_routes K matrix = .ok ls ∧
      ls.length = matrix.length ∧
      (∀ l ∈ ls, l < K) ∧
      (∀ k < K, k ∈ ls) := by
  have hcond : ¬(K = 0 ∨ matrix.length < K) := by omega
  have hsp := agglomerate_spec (dOf (minMaxScale matrix)) matrix.length K
    h1 h2
  have hcl := clusterLabels_spec matrix.length K _ hsp.2 hsp.1
  refine ⟨clusterLabels
    (agglomerate (dOf (minMaxScale matrix)) matrix.length K) matrix.length,
    ?_, hcl.1, hcl.2.1, hcl.2.2⟩
  unfold label_routes
  rw [if_neg hcond]

/-- Witness for C6 at a concrete 3-address matrix with `K = 2`. -/
theorem label_routes_partition_witness :
    1 ≤ 2 ∧ 2 ≤ ([[(0 : ℚ), 1, 5], [1, 0, 6], [5, 6, 0]]).length ∧
    ∃ ls, label_routes 2 [[(0 : ℚ), 1, 5], [1, 0, 6], [5, 6, 0]] = .ok ls ∧
      ls.length = ([[(0 : ℚ), 1, 5], [1, 0, 6], [5, 6, 0]]).length ∧
      (∀ l ∈ ls, l < 2) ∧
      (∀ k < 2, k ∈ ls) :=
  ⟨by decide, by decide,
   label_routes_partition [[(0 : ℚ), 1, 5], [1, 0, 6], [5, 6, 0]] 2
     (by decide) (by decide)⟩

end RouteOpt
